import Mathlib

/-!
Verification of the MTFS Merkle-tree engine (C++ sources: `merkleTree.cpp`,
`merkleNode.cpp`, `merkle.hpp`) against its natural-language specification.

The embedding models:
- `MerkleNode` — the node record; `children` is the `std::map<string, shared_ptr>`
  of the source, represented as a list of nodes kept sorted by name with unique
  names (exactly the invariant a `std::map` keyed by name maintains; map
  iteration order is ascending key order).
- the SHA-256 routine is an arbitrary parameter `sha : String → String`
  (the claims are about the tree algebra, not about SHA-256 internals);
  `demoDigest` is a concrete injective instance used for witnesses.
- C++ methods that mutate nodes through `shared_ptr` aliasing are modelled by
  explicit state passing: `calculateHash` returns the recomputed hash together
  with the rewritten node, `verifyNodeIntegrity` returns the verdict together
  with the node graph as left behind by the call.
- string comparison: `std::string::operator<` is byte-lexicographic; on UTF-8
  data that coincides with code-point-lexicographic order, embedded here as
  `strLt` on the character lists of Lean strings.
-/

/-! ### Lexicographic string order (kernel-reducible) -/

def charsLt : List Char → List Char → Bool
  | _, [] => false
  | [], _ :: _ => true
  | a :: as, b :: bs => if a < b then true else if b < a then false else charsLt as bs

def strLt (a b : String) : Bool := charsLt a.data b.data

theorem charsLt_asymm (a b : List Char) (h : charsLt a b = true) : charsLt b a = false := by
  induction a generalizing b with
  | nil =>
    cases b with
    | nil => simp [charsLt] at h
    | cons x xs => simp [charsLt]
  | cons x xs ih =>
    cases b with
    | nil => simp [charsLt] at h
    | cons y ys =>
      simp only [charsLt] at h ⊢
      by_cases h1 : x < y
      · have h2 : ¬ y < x := lt_asymm h1
        simp [h1, h2]
      · by_cases h2 : y < x
        · simp [h1, h2] at h
        · simp [h1, h2] at h ⊢
          exact ih ys h

theorem charsLt_total (a b : List Char) (hab : charsLt a b = false)
    (hba : charsLt b a = false) : a = b := by
  induction a generalizing b with
  | nil =>
    cases b with
    | nil => rfl
    | cons x xs => simp [charsLt] at hab
  | cons x xs ih =>
    cases b with
    | nil => simp [charsLt] at hba
    | cons y ys =>
      simp only [charsLt] at hab hba
      by_cases h1 : x < y
      · simp [h1] at hab
      · by_cases h2 : y < x
        · simp [h1, h2] at hba
        · have hxy : x = y := le_antisymm (not_lt.mp h2) (not_lt.mp h1)
          simp [h1, h2] at hab hba
          rw [hxy, ih ys hab hba]

theorem strLt_asymm (a b : String) (h : strLt a b = true) : strLt b a = false :=
  charsLt_asymm a.data b.data h

theorem strLt_total (a b : String) (hab : strLt a b = false)
    (hba : strLt b a = false) : a = b := by
  cases a with
  | mk da =>
    cases b with
    | mk db =>
      have : da = db := charsLt_total da db hab hba
      rw [this]

theorem strLt_irrefl (a : String) : strLt a a = false := by
  by_cases h : strLt a a = true
  · have := strLt_asymm a a h
    rw [this] at h
    exact absurd h (by simp)
  · exact eq_false_of_ne_true h

/-! ### The node model -/

inductive MerkleNode where
  | mk (name : String) (hash : String) (contentHash : String)
      (chunkHashes : List String) (isFile : Bool) (fileSize : Nat)
      (children : List MerkleNode)

def MerkleNode.name : MerkleNode → String
  | .mk n _ _ _ _ _ _ => n

def MerkleNode.hash : MerkleNode → String
  | .mk _ h _ _ _ _ _ => h

def MerkleNode.contentHash : MerkleNode → String
  | .mk _ _ c _ _ _ _ => c

def MerkleNode.chunkHashes : MerkleNode → List String
  | .mk _ _ _ ch _ _ _ => ch

def MerkleNode.isFile : MerkleNode → Bool
  | .mk _ _ _ _ f _ _ => f

def MerkleNode.fileSize : MerkleNode → Nat
  | .mk _ _ _ _ _ sz _ => sz

def MerkleNode.children : MerkleNode → List MerkleNode
  | .mk _ _ _ _ _ _ cs => cs

/-! Node size, used as a termination measure for traversals whose recursion
    goes through a rewritten (not structurally smaller) node graph. -/

mutual
def numNodes : MerkleNode → Nat
  | .mk _ _ _ _ _ _ cs => 1 + numNodesList cs
def numNodesList : List MerkleNode → Nat
  | [] => 0
  | c :: cs => numNodes c + numNodesList cs
end

theorem numNodes_pos (n : MerkleNode) : 0 < numNodes n := by
  cases n with
  | mk a b c d e f g => simp [numNodes]

theorem numNodesList_le_of_mem {c : MerkleNode} {l : List MerkleNode} (h : c ∈ l) :
    numNodes c ≤ numNodesList l := by
  induction l with
  | nil => cases h
  | cons x xs ih =>
    rcases List.mem_cons.mp h with rfl | h2
    · simp [numNodesList]
    · have := ih h2
      simp [numNodesList]
      omega

theorem numNodes_lt_of_mem {c n : MerkleNode} (h : c ∈ n.children) :
    numNodes c < numNodes n := by
  cases n with
  | mk a b hc d e f cs =>
    have := numNodesList_le_of_mem (l := cs) (by simpa [MerkleNode.children] using h)
    simp [numNodes]
    omega

/-- Strong induction over the node graph: to prove a property of every node it
    suffices to prove it for a node assuming it for all its children. -/
theorem MerkleNode.strongInd (P : MerkleNode → Prop)
    (step : ∀ n : MerkleNode, (∀ c ∈ n.children, P c) → P n) : ∀ n, P n := by
  have aux : ∀ k : Nat, ∀ n : MerkleNode, numNodes n ≤ k → P n := by
    intro k
    induction k with
    | zero => intro n hn; have := numNodes_pos n; omega
    | succ k ih =>
      intro n hn
      refine step n (fun c hc => ih c ?_)
      have := numNodes_lt_of_mem hc
      omega
  exact fun n => aux (numNodes n) n (Nat.le_refl _)

/-! ### The children map (`std::map<string, shared_ptr<MerkleNode>>`)

`mapInsert` is `children[child->name] = child`: it keeps the list sorted by
`strLt` on names and overwrites an existing entry with an equal name. -/

def mapInsert (c : MerkleNode) : List MerkleNode → List MerkleNode
  | [] => [c]
  | x :: xs =>
    if strLt c.name x.name then c :: x :: xs
    else if c.name = x.name then c :: xs
    else x :: mapInsert c xs

/-- MerkleNode::addChild: refuses file parents (and, in C++, null children,
    which have no counterpart for Lean values); otherwise performs
    `children[child->name] = child` and resets the cached depth (the cached
    depth is not part of this model: no claim mentions it). -/
def MerkleNode.addChild (n child : MerkleNode) : Except String MerkleNode :=
  match n with
  | .mk nm h c ch f sz cs =>
    if f then .error ("Cannot add child to a file node: " ++ nm)
    else .ok (.mk nm h c ch f sz (mapInsert child cs))

/-! Sortedness invariants of the node graph (always true for trees produced by
    `build_node`, because `std::map` keeps keys strictly sorted). -/

def sortedB : List MerkleNode → Bool
  | [] => true
  | a :: rest => rest.all (fun b => strLt a.name b.name) && sortedB rest

mutual
def sortedTreeB : MerkleNode → Bool
  | .mk _ _ _ _ _ _ cs => sortedB cs && sortedTreeListB cs
def sortedTreeListB : List MerkleNode → Bool
  | [] => true
  | c :: cs => sortedTreeB c && sortedTreeListB cs
end

/-! `filesLeafB` checks that file nodes have no children (guaranteed by
    `addChild`, which throws on file parents, and by `build_node`, which only
    adds children to directory nodes). -/
mutual
def filesLeafB : MerkleNode → Bool
  | .mk _ _ _ _ f _ cs => (!f || cs.isEmpty) && filesLeafListB cs
def filesLeafListB : List MerkleNode → Bool
  | [] => true
  | c :: cs => filesLeafB c && filesLeafListB cs
end

/-! ### MerkleNode::calculateHash

Files: `hash = contentHash`. Empty directory: `hash = sha(name)`. Directory:
the source collects the map keys, sorts them (a no-operation, since map keys
are already in ascending order) and concatenates `"<name>:<childHash>;"` per
child in that order, recursively recomputing and rewriting every child's
`hash` on the way; this is the fold `calculateHashChildren` over the sorted
children list. The returned pair is (computed hash, rewritten node). -/

mutual
def MerkleNode.calculateHash (sha : String → String) : MerkleNode → String × MerkleNode
  | .mk n _ c ch true sz cs => (c, .mk n c c ch true sz cs)
  | .mk n _ c ch false sz [] => (sha n, .mk n (sha n) c ch false sz [])
  | .mk n _ c ch false sz (c0 :: cs) =>
    let r := calculateHashChildren sha (c0 :: cs)
    (sha r.1, .mk n (sha r.1) c ch false sz r.2)
def calculateHashChildren (sha : String → String) :
    List MerkleNode → String × List MerkleNode
  | [] => ("", [])
  | c :: cs =>
    let rc := MerkleNode.calculateHash sha c
    let rcs := calculateHashChildren sha cs
    (c.name ++ ":" ++ rc.1 ++ ";" ++ rcs.1, rc.2 :: rcs.2)
end

/-! ### Sorting children by name

The source sorts the collected child names with `std::sort` before hashing,
printing and exporting; on the already-ascending key sequence of a `std::map`
this is the identity, which `sortByName_sorted_id` records. `sortByName` is a
straight insertion sort by `strLt`. -/

def insertByName (c : MerkleNode) : List MerkleNode → List MerkleNode
  | [] => [c]
  | x :: xs => if strLt x.name c.name then x :: insertByName c xs else c :: x :: xs

def sortByName : List MerkleNode → List MerkleNode
  | [] => []
  | c :: cs => insertByName c (sortByName cs)

theorem insertByName_perm (c : MerkleNode) (l : List MerkleNode) :
    List.Perm (insertByName c l) (c :: l) := by
  induction l with
  | nil => simp [insertByName]
  | cons x xs ih =>
    simp only [insertByName]
    by_cases h : strLt x.name c.name
    · simp only [h, if_pos]
      exact List.Perm.trans (List.Perm.cons x ih) (List.Perm.swap c x xs)
    · simp [h]

theorem sortByName_perm (l : List MerkleNode) : List.Perm (sortByName l) l := by
  induction l with
  | nil => simp [sortByName]
  | cons c cs ih =>
    simp only [sortByName]
    exact List.Perm.trans (insertByName_perm c (sortByName cs)) (List.Perm.cons c ih)

theorem sortByName_mem {c : MerkleNode} {l : List MerkleNode}
    (h : c ∈ sortByName l) : c ∈ l :=
  (sortByName_perm l).mem_iff.mp h

theorem sortedB_pairwise (l : List MerkleNode) :
    sortedB l = true ↔ l.Pairwise (fun a b => strLt a.name b.name = true) := by
  induction l with
  | nil => simp [sortedB]
  | cons a rest ih =>
    simp [sortedB, List.pairwise_cons, ih, List.all_eq_true]

theorem sortByName_sorted_id (l : List MerkleNode) (h : sortedB l = true) :
    sortByName l = l := by
  induction l with
  | nil => rfl
  | cons a rest ih =>
    simp only [sortedB, Bool.and_eq_true, List.all_eq_true] at h
    simp only [sortByName, ih h.2]
    cases rest with
    | nil => rfl
    | cons b bs =>
      have hab : strLt a.name b.name = true := h.1 b (by simp)
      have : strLt b.name a.name = false := strLt_asymm _ _ hab
      simp [insertByName, this]

/-! ### mapInsert preserves the map invariant; insertion order is irrelevant -/

theorem charsLt_trans (a b c : List Char) (hab : charsLt a b = true)
    (hbc : charsLt b c = true) : charsLt a c = true := by
  induction a generalizing b c with
  | nil =>
    cases b with
    | nil => simp [charsLt] at hab
    | cons y ys =>
      cases c with
      | nil => simp [charsLt] at hbc
      | cons z zs => simp [charsLt]
  | cons x xs ih =>
    cases b with
    | nil => simp [charsLt] at hab
    | cons y ys =>
      cases c with
      | nil => simp [charsLt] at hbc
      | cons z zs =>
        simp only [charsLt] at hab hbc ⊢
        by_cases h1 : x < y
        · by_cases h2 : y < z
          · simp [lt_trans h1 h2]
          · by_cases h3 : z < y
            · simp [h2, h3] at hbc
            · have : y = z := le_antisymm (not_lt.mp h3) (not_lt.mp h2)
              subst this
              simp [h1]
        · by_cases h4 : y < x
          · simp [h1, h4] at hab
          · have hxy : x = y := le_antisymm (not_lt.mp h4) (not_lt.mp h1)
            subst hxy
            simp [h1] at hab ⊢
            by_cases h2 : x < z
            · simp [h2]
            · by_cases h3 : z < x
              · simp [h2, h3] at hbc
              · simp [h2, h3] at hbc ⊢
                exact ⟨not_lt.mp h3, ih ys zs hab hbc⟩

theorem strLt_trans (a b c : String) (hab : strLt a b = true)
    (hbc : strLt b c = true) : strLt a c = true :=
  charsLt_trans a.data b.data c.data hab hbc

theorem mem_mapInsert {y c : MerkleNode} {m : List MerkleNode}
    (h : y ∈ mapInsert c m) : y = c ∨ y ∈ m := by
  induction m with
  | nil =>
    simp [mapInsert] at h
    exact Or.inl h
  | cons x xs ih =>
    simp only [mapInsert] at h
    by_cases h1 : strLt c.name x.name
    · rw [if_pos h1] at h
      rcases List.mem_cons.mp h with rfl | h
      · exact Or.inl rfl
      · exact Or.inr h
    · rw [if_neg h1] at h
      by_cases h2 : c.name = x.name
      · rw [if_pos h2] at h
        rcases List.mem_cons.mp h with rfl | h
        · exact Or.inl rfl
        · exact Or.inr (List.mem_cons_of_mem _ h)
      · rw [if_neg h2] at h
        rcases List.mem_cons.mp h with rfl | h
        · exact Or.inr (List.mem_cons_self _ _)
        · rcases ih h with h | h
          · exact Or.inl h
          · exact Or.inr (List.mem_cons_of_mem _ h)

theorem sortedB_mapInsert (c : MerkleNode) (m : List MerkleNode)
    (h : sortedB m = true) : sortedB (mapInsert c m) = true := by
  rw [sortedB_pairwise] at h ⊢
  induction m with
  | nil => simp [mapInsert]
  | cons x xs ih =>
    rw [List.pairwise_cons] at h
    simp only [mapInsert]
    by_cases h1 : strLt c.name x.name
    · rw [if_pos h1]
      refine List.Pairwise.cons ?_ (List.Pairwise.cons h.1 h.2)
      intro y hy
      rcases List.mem_cons.mp hy with rfl | hy
      · exact h1
      · exact strLt_trans _ _ _ h1 (h.1 y hy)
    · rw [if_neg h1]
      by_cases h2 : c.name = x.name
      · rw [if_pos h2]
        refine List.Pairwise.cons ?_ h.2
        intro y hy
        rw [h2]
        exact h.1 y hy
      · rw [if_neg h2]
        refine List.Pairwise.cons ?_ (ih h.2)
        intro y hy
        rcases mem_mapInsert hy with rfl | hy
        · by_cases h3 : strLt x.name y.name
          · exact h3
          · exact absurd (strLt_total _ _ (eq_false_of_ne_true h1)
              (eq_false_of_ne_true h3)) h2
        · exact h.1 y hy

/-- Building a children map by repeated `addChild`-style insertion, starting
    from an empty map, as `build_node` does for a directory's entries. -/
def foldInsert (l : List MerkleNode) : List MerkleNode :=
  l.foldl (fun m c => mapInsert c m) []

theorem sortedB_foldl_mapInsert (l : List MerkleNode) (m : List MerkleNode)
    (hm : sortedB m = true) :
    sortedB (l.foldl (fun m c => mapInsert c m) m) = true := by
  induction l generalizing m with
  | nil => simpa [List.foldl]
  | cons c cs ih =>
    simp only [List.foldl]
    exact ih _ (sortedB_mapInsert c m hm)

theorem mapInsert_perm_of_fresh (c : MerkleNode) (m : List MerkleNode)
    (h : c.name ∉ m.map MerkleNode.name) :
    List.Perm (mapInsert c m) (c :: m) := by
  induction m with
  | nil => simp [mapInsert]
  | cons x xs ih =>
    simp only [List.map_cons, List.mem_cons] at h
    push_neg at h
    simp only [mapInsert]
    by_cases h1 : strLt c.name x.name
    · simp [h1]
    · rw [if_neg h1, if_neg h.1]
      exact List.Perm.trans (List.Perm.cons x (ih h.2)) (List.Perm.swap c x xs)

theorem foldl_mapInsert_perm (l : List MerkleNode) (m : List MerkleNode)
    (hnd : (m.map MerkleNode.name ++ l.map MerkleNode.name).Nodup) :
    List.Perm (l.foldl (fun m c => mapInsert c m) m) (m ++ l) := by
  induction l generalizing m with
  | nil => simp
  | cons c cs ih =>
    simp only [List.foldl]
    rw [List.map_cons] at hnd
    rcases List.nodup_append.mp hnd with ⟨hm, hccs, hdisj⟩
    have hfresh : c.name ∉ m.map MerkleNode.name := fun hc => hdisj hc (by simp)
    have hperm1 : List.Perm
        ((mapInsert c m).map MerkleNode.name ++ cs.map MerkleNode.name)
        ((c.name :: m.map MerkleNode.name) ++ cs.map MerkleNode.name) :=
      List.Perm.append_right _ ((mapInsert_perm_of_fresh c m hfresh).map _)
    have hperm2 : List.Perm
        ((c.name :: m.map MerkleNode.name) ++ cs.map MerkleNode.name)
        (m.map MerkleNode.name ++ c.name :: cs.map MerkleNode.name) := by
      simpa using List.perm_middle.symm
    have hnd2 : ((mapInsert c m).map MerkleNode.name ++ cs.map MerkleNode.name).Nodup :=
      ((hperm1.trans hperm2).nodup_iff).mpr hnd
    refine (ih (mapInsert c m) hnd2).trans ?_
    refine (List.Perm.append_right cs (mapInsert_perm_of_fresh c m hfresh)).trans ?_
    simpa using List.perm_middle.symm

theorem sortedB_perm_eq (l1 l2 : List MerkleNode) (h1 : sortedB l1 = true)
    (h2 : sortedB l2 = true) (hp : List.Perm l1 l2) : l1 = l2 := by
  rw [sortedB_pairwise] at h1 h2
  haveI : IsAntisymm MerkleNode (fun a b => strLt a.name b.name = true) :=
    ⟨fun a b hab hba => absurd hba (by simp [strLt_asymm _ _ hab])⟩
  exact List.eq_of_perm_of_sorted hp h1 h2

/-- Inserting the same set of distinctly-named children in any order produces
    the same map: the mechanism behind root-hash determinism. -/
theorem foldInsert_perm_eq (l1 l2 : List MerkleNode) (hp : List.Perm l1 l2)
    (hnd : (l1.map MerkleNode.name).Nodup) : foldInsert l1 = foldInsert l2 := by
  have hnd2 : (l2.map MerkleNode.name).Nodup :=
    ((hp.map MerkleNode.name).nodup_iff).mp hnd
  refine sortedB_perm_eq _ _ (sortedB_foldl_mapInsert l1 [] rfl)
    (sortedB_foldl_mapInsert l2 [] rfl) ?_
  have p1 : List.Perm (foldInsert l1) l1 := by
    simpa using foldl_mapInsert_perm l1 [] (by simpa using hnd)
  have p2 : List.Perm (foldInsert l2) l2 := by
    simpa using foldl_mapInsert_perm l2 [] (by simpa using hnd2)
  exact (p1.trans hp).trans p2.symm

/-! ### Basic rewriting lemmas for the node accessors -/

@[simp] theorem MerkleNode.name_mk (n h c : String) (ch : List String) (f : Bool)
    (sz : Nat) (cs : List MerkleNode) : (MerkleNode.mk n h c ch f sz cs).name = n := rfl

@[simp] theorem MerkleNode.hash_mk (n h c : String) (ch : List String) (f : Bool)
    (sz : Nat) (cs : List MerkleNode) : (MerkleNode.mk n h c ch f sz cs).hash = h := rfl

@[simp] theorem MerkleNode.contentHash_mk (n h c : String) (ch : List String) (f : Bool)
    (sz : Nat) (cs : List MerkleNode) : (MerkleNode.mk n h c ch f sz cs).contentHash = c := rfl

@[simp] theorem MerkleNode.chunkHashes_mk (n h c : String) (ch : List String) (f : Bool)
    (sz : Nat) (cs : List MerkleNode) : (MerkleNode.mk n h c ch f sz cs).chunkHashes = ch := rfl

@[simp] theorem MerkleNode.isFile_mk (n h c : String) (ch : List String) (f : Bool)
    (sz : Nat) (cs : List MerkleNode) : (MerkleNode.mk n h c ch f sz cs).isFile = f := rfl

@[simp] theorem MerkleNode.fileSize_mk (n h c : String) (ch : List String) (f : Bool)
    (sz : Nat) (cs : List MerkleNode) : (MerkleNode.mk n h c ch f sz cs).fileSize = sz := rfl

@[simp] theorem MerkleNode.children_mk (n h c : String) (ch : List String) (f : Bool)
    (sz : Nat) (cs : List MerkleNode) : (MerkleNode.mk n h c ch f sz cs).children = cs := rfl

/-! ### Shape lemmas for calculateHash -/

/-- The per-child fragment `"<name>:<childHash>;"` that `calculateHash`
    appends for each child of a directory. -/
def childPiece (sha : String → String) (c : MerkleNode) : String :=
  c.name ++ ":" ++ (MerkleNode.calculateHash sha c).1 ++ ";"

/-- Concatenation of a list of strings, in order. -/
def concatStr : List String → String
  | [] => ""
  | s :: ss => s ++ concatStr ss

theorem calculateHashChildren_snd (sha : String → String) (cs : List MerkleNode) :
    (calculateHashChildren sha cs).2 =
      cs.map (fun c => (MerkleNode.calculateHash sha c).2) := by
  induction cs with
  | nil => rfl
  | cons c cs ih => simp [calculateHashChildren, ih]

theorem calculateHashChildren_fst (sha : String → String) (cs : List MerkleNode) :
    (calculateHashChildren sha cs).1 = concatStr (cs.map (childPiece sha)) := by
  induction cs with
  | nil => rfl
  | cons c cs ih => simp [calculateHashChildren, ih, childPiece, concatStr]

theorem calculateHash_file (sha : String → String) (n : MerkleNode) (hf : n.isFile = true) :
    MerkleNode.calculateHash sha n = (n.contentHash,
      .mk n.name n.contentHash n.contentHash n.chunkHashes true n.fileSize n.children) := by
  cases n with
  | mk a b c d e f g =>
    simp at hf
    subst hf
    simp [MerkleNode.calculateHash]

theorem calculateHash_dir_empty (sha : String → String) (n : MerkleNode)
    (hf : n.isFile = false) (hc : n.children = []) :
    MerkleNode.calculateHash sha n = (sha n.name,
      .mk n.name (sha n.name) n.contentHash n.chunkHashes false n.fileSize []) := by
  cases n with
  | mk a b c d e f g =>
    simp at hf hc
    subst hf
    subst hc
    simp [MerkleNode.calculateHash]

theorem calculateHash_dir (sha : String → String) (n : MerkleNode)
    (hf : n.isFile = false) (hc : n.children ≠ []) :
    MerkleNode.calculateHash sha n =
      (sha (concatStr (n.children.map (childPiece sha))),
       .mk n.name (sha (concatStr (n.children.map (childPiece sha))))
         n.contentHash n.chunkHashes false n.fileSize
         (n.children.map (fun c => (MerkleNode.calculateHash sha c).2))) := by
  cases n with
  | mk a b c d e f g =>
    simp at hf
    subst hf
    cases g with
    | nil => simp at hc
    | cons c0 cs =>
      simp only [MerkleNode.calculateHash]
      rw [calculateHashChildren_fst, calculateHashChildren_snd]
      simp

theorem calculateHash_snd_hash (sha : String → String) (n : MerkleNode) :
    (MerkleNode.calculateHash sha n).2.hash = (MerkleNode.calculateHash sha n).1 := by
  cases n with
  | mk a b c d e f g =>
    cases e with
    | true => simp [MerkleNode.calculateHash]
    | false =>
      cases g with
      | nil => simp [MerkleNode.calculateHash]
      | cons c0 cs => simp [MerkleNode.calculateHash]

theorem calculateHash_snd_name (sha : String → String) (n : MerkleNode) :
    (MerkleNode.calculateHash sha n).2.name = n.name := by
  cases n with
  | mk a b c d e f g =>
    cases e with
    | true => simp [MerkleNode.calculateHash]
    | false =>
      cases g with
      | nil => simp [MerkleNode.calculateHash]
      | cons c0 cs => simp [MerkleNode.calculateHash]

theorem calculateHash_snd_isFile (sha : String → String) (n : MerkleNode) :
    (MerkleNode.calculateHash sha n).2.isFile = n.isFile := by
  cases n with
  | mk a b c d e f g =>
    cases e with
    | true => simp [MerkleNode.calculateHash]
    | false =>
      cases g with
      | nil => simp [MerkleNode.calculateHash]
      | cons c0 cs => simp [MerkleNode.calculateHash]

theorem calculateHash_fst_hash_irrel (sha : String → String) (nm h h' c : String)
    (ch : List String) (f : Bool) (sz : Nat) (cs : List MerkleNode) :
    (MerkleNode.calculateHash sha (.mk nm h c ch f sz cs)).1 =
      (MerkleNode.calculateHash sha (.mk nm h' c ch f sz cs)).1 := by
  cases f with
  | true => simp [MerkleNode.calculateHash]
  | false =>
    cases cs with
    | nil => simp [MerkleNode.calculateHash]
    | cons c0 cs => simp [MerkleNode.calculateHash]

/-! ### calculateHash rewrites every hash field to its recomputed value -/

theorem map_eq_self_mem {α : Type} {f : α → α} {l : List α} (h : l.map f = l) :
    ∀ c ∈ l, f c = c := by
  induction l with
  | nil => intro c hc; cases hc
  | cons x xs ih =>
    simp only [List.map_cons, List.cons.injEq] at h
    intro c hc
    rcases List.mem_cons.mp hc with rfl | hc
    · exact h.1
    · exact ih h.2 c hc

theorem numNodesList_map_eq (cs : List MerkleNode) (f : MerkleNode → MerkleNode)
    (h : ∀ c ∈ cs, numNodes (f c) = numNodes c) :
    numNodesList (cs.map f) = numNodesList cs := by
  induction cs with
  | nil => rfl
  | cons c cs ih =>
    simp only [List.map_cons, numNodesList]
    rw [h c (by simp), ih (fun c hc => h c (by simp [hc]))]

theorem calculateHash_numNodes (sha : String → String) :
    ∀ n : MerkleNode, numNodes (MerkleNode.calculateHash sha n).2 = numNodes n := by
  refine MerkleNode.strongInd _ (fun n ih => ?_)
  by_cases hf : n.isFile = true
  · rw [calculateHash_file sha n hf]
    cases n with
    | mk a b c d e f g => simp [numNodes]
  · have hf2 : n.isFile = false := by simpa using hf
    by_cases hc : n.children = []
    · rw [calculateHash_dir_empty sha n hf2 hc]
      cases n with
      | mk a b c d e f g =>
        simp only [MerkleNode.children_mk] at hc
        subst hc
        simp [numNodes]
    · rw [calculateHash_dir sha n hf2 hc]
      cases n with
      | mk a b c d e f g =>
        simp only [numNodes, MerkleNode.children_mk] at ih ⊢
        rw [numNodesList_map_eq g _ (fun c hcm => ih c hcm)]

/-- A node is "repaired" when its stored hashes already agree with what
    `calculateHash` recomputes, so recomputation returns it unchanged. Every
    node produced by `calculateHash` (hence every freshly built tree) is
    repaired. -/
def Repaired (sha : String → String) (n : MerkleNode) : Prop :=
  MerkleNode.calculateHash sha n = (n.hash, n)

theorem filesLeafListB_iff (cs : List MerkleNode) :
    filesLeafListB cs = true ↔ ∀ c ∈ cs, filesLeafB c = true := by
  induction cs with
  | nil => simp [filesLeafListB]
  | cons c cs ih => simp [filesLeafListB, ih]

theorem calculateHash_repairs (sha : String → String) :
    ∀ n : MerkleNode, Repaired sha (MerkleNode.calculateHash sha n).2 := by
  refine MerkleNode.strongInd _ (fun n ih => ?_)
  by_cases hf : n.isFile = true
  · rw [calculateHash_file sha n hf]
    rw [Repaired, calculateHash_file sha _ (by simp)]
    simp
  · have hf2 : n.isFile = false := by simpa using hf
    by_cases hc : n.children = []
    · rw [calculateHash_dir_empty sha n hf2 hc]
      rw [Repaired, calculateHash_dir_empty sha _ (by simp) (by simp)]
      simp
    · rw [calculateHash_dir sha n hf2 hc]
      have hmap : ∀ c ∈ n.children,
          MerkleNode.calculateHash sha (MerkleNode.calculateHash sha c).2 =
            ((MerkleNode.calculateHash sha c).1, (MerkleNode.calculateHash sha c).2) := by
        intro c hcm
        have := ih c hcm
        rw [Repaired] at this
        rw [this, calculateHash_snd_hash]
      have hne : n.children.map (fun c => (MerkleNode.calculateHash sha c).2) ≠ [] := by
        simpa using hc
      rw [Repaired, calculateHash_dir sha _ (by simp) (by simpa using hne)]
      simp only [MerkleNode.children_mk, MerkleNode.hash_mk, MerkleNode.name_mk,
        MerkleNode.contentHash_mk, MerkleNode.chunkHashes_mk, MerkleNode.fileSize_mk]
      have hpieces : (n.children.map (fun c => (MerkleNode.calculateHash sha c).2)).map
          (childPiece sha) = n.children.map (childPiece sha) := by
        rw [List.map_map]
        refine List.map_congr_left (fun c hcm => ?_)
        simp only [Function.comp, childPiece]
        rw [calculateHash_snd_name, hmap c hcm]
      have hnodes : (n.children.map (fun c => (MerkleNode.calculateHash sha c).2)).map
          (fun c => (MerkleNode.calculateHash sha c).2) =
          n.children.map (fun c => (MerkleNode.calculateHash sha c).2) := by
        rw [List.map_map]
        refine List.map_congr_left (fun c hcm => ?_)
        simp only [Function.comp]
        rw [hmap c hcm]
      rw [hpieces, hnodes]

theorem Repaired.child (sha : String → String) (n : MerkleNode) (h : Repaired sha n)
    (hf : n.isFile = false) : ∀ c ∈ n.children, Repaired sha c := by
  by_cases hc : n.children = []
  · rw [hc]
    intro c hcm
    cases hcm
  · rw [Repaired, calculateHash_dir sha n hf hc] at h
    have hsnd := congrArg Prod.snd h
    simp only at hsnd
    have hchildren := congrArg MerkleNode.children hsnd
    cases n with
    | mk a b c d e f g =>
      simp only [MerkleNode.children_mk] at hchildren
      intro c hcm
      have hfix : (MerkleNode.calculateHash sha c).2 = c := map_eq_self_mem hchildren c hcm
      have hh : (MerkleNode.calculateHash sha c).1 = c.hash := by
        rw [← calculateHash_snd_hash, hfix]
      show MerkleNode.calculateHash sha c = (c.hash, c)
      exact Prod.ext hh hfix

theorem calculateHash_filesLeaf (sha : String → String) :
    ∀ n : MerkleNode, filesLeafB n = true →
      filesLeafB (MerkleNode.calculateHash sha n).2 = true := by
  refine MerkleNode.strongInd _ (fun n ih hfl => ?_)
  by_cases hf : n.isFile = true
  · rw [calculateHash_file sha n hf]
    cases n with
    | mk a b c d e f g =>
      simp only [MerkleNode.isFile_mk] at hf
      subst hf
      simpa [filesLeafB] using hfl
  · have hf2 : n.isFile = false := by simpa using hf
    by_cases hc : n.children = []
    · rw [calculateHash_dir_empty sha n hf2 hc]
      simp [filesLeafB, filesLeafListB]
    · rw [calculateHash_dir sha n hf2 hc]
      cases n with
      | mk a b c d e f g =>
        simp only [MerkleNode.isFile_mk] at hf2
        subst hf2
        simp only [filesLeafB, Bool.not_false, Bool.true_or, Bool.true_and,
          MerkleNode.children_mk] at hfl ⊢
        rw [filesLeafListB_iff] at hfl ⊢
        intro c2 hc2
        rcases List.mem_map.mp hc2 with ⟨c, hcm, rfl⟩
        exact ih c (by simpa using hcm) (hfl c hcm)

/-! ### MerkleTree::verifyNodeIntegrity

The C++ method stores the node's current hash, calls `calculateHash` — which
recursively recomputes and REWRITES the hash of the node and of its entire
subtree — compares, and only then recurses into the (already rewritten)
children, stopping at the first mismatch. The returned pair is
(verdict, node graph as left behind by the call). -/

mutual
def verifyNodeIntegrity (sha : String → String) (n : MerkleNode) : Bool × MerkleNode :=
  let r := MerkleNode.calculateHash sha n
  if n.hash = r.1 then
    let z := verifyListIntegrity sha r.2.children
    (z.1, .mk r.2.name r.2.hash r.2.contentHash r.2.chunkHashes r.2.isFile r.2.fileSize z.2)
  else (false, r.2)
termination_by 2 * numNodes n
decreasing_by
  have h1 : numNodes (MerkleNode.calculateHash sha n).2 = numNodes n :=
    calculateHash_numNodes sha n
  have h2 : 0 < numNodes n := numNodes_pos n
  cases hn : (MerkleNode.calculateHash sha n).2 with
  | mk a b c d e f g =>
    have : numNodes (MerkleNode.mk a b c d e f g) = numNodes n := by rw [← hn]; exact h1
    simp [numNodes] at this
    simp [MerkleNode.children]
    omega
def verifyListIntegrity (sha : String → String) (l : List MerkleNode) : Bool × List MerkleNode :=
  match l with
  | [] => (true, [])
  | c :: cs =>
    let rc := verifyNodeIntegrity sha c
    if rc.1 then
      let rcs := verifyListIntegrity sha cs
      (rcs.1, rc.2 :: rcs.2)
    else (false, rc.2 :: cs)
termination_by 2 * numNodesList l + 1
decreasing_by
  · have := numNodes_pos c
    simp [numNodesList]
    omega
  · have := numNodes_pos c
    simp [numNodesList]
    omega
end

theorem filesLeafB_child (n : MerkleNode) (h : filesLeafB n = true) :
    ∀ c ∈ n.children, filesLeafB c = true := by
  cases n with
  | mk a b c d e f g =>
    simp only [filesLeafB, Bool.and_eq_true] at h
    simpa [filesLeafListB_iff] using h.2

theorem filesLeafB_file_no_children (n : MerkleNode) (h : filesLeafB n = true)
    (hf : n.isFile = true) : n.children = [] := by
  cases n with
  | mk a b c d e f g =>
    simp only [MerkleNode.isFile_mk] at hf
    subst hf
    simp only [filesLeafB, Bool.not_true, Bool.false_or, Bool.and_eq_true] at h
    simpa [List.isEmpty_iff] using h.1

theorem verifyListIntegrity_of_fixed (sha : String → String) (cs : List MerkleNode)
    (h : ∀ c ∈ cs, verifyNodeIntegrity sha c = (true, c)) :
    verifyListIntegrity sha cs = (true, cs) := by
  induction cs with
  | nil => rw [verifyListIntegrity]
  | cons c cs ih =>
    rw [verifyListIntegrity]
    simp [h c (by simp), ih (fun c hc => h c (by simp [hc]))]

/-- Verification of an already-repaired, well-formed node succeeds and returns
    the node graph unchanged. -/
theorem verifyNodeIntegrity_repaired (sha : String → String) :
    ∀ n : MerkleNode, Repaired sha n → filesLeafB n = true →
      verifyNodeIntegrity sha n = (true, n) := by
  refine MerkleNode.strongInd _ (fun n ih hrep hfl => ?_)
  rw [verifyNodeIntegrity]
  rw [Repaired] at hrep
  rw [hrep]
  simp only [if_pos rfl]
  have hchild : ∀ c ∈ n.children, verifyNodeIntegrity sha c = (true, c) := by
    intro c hcm
    by_cases hf : n.isFile = true
    · rw [filesLeafB_file_no_children n hfl hf] at hcm
      cases hcm
    · exact ih c hcm (Repaired.child sha n hrep (by simpa using hf) c hcm)
        (filesLeafB_child n hfl c hcm)
  rw [verifyListIntegrity_of_fixed sha n.children hchild]
  cases n with
  | mk a b c d e f g => simp

/-- What MerkleTree::verifyNodeIntegrity actually decides: only the hash stored
    at the node it is called on is compared against a recomputation; every
    descendant's stored hash has already been overwritten by `calculateHash`
    before the recursive check reaches it, so descendants always pass. -/
theorem verifyNodeIntegrity_eq (sha : String → String) (n : MerkleNode)
    (hfl : filesLeafB n = true) :
    (verifyNodeIntegrity sha n).1 = true ↔
      n.hash = (MerkleNode.calculateHash sha n).1 := by
  rw [verifyNodeIntegrity]
  by_cases h : n.hash = (MerkleNode.calculateHash sha n).1
  · simp only [h, if_pos rfl]
    have hrep2 : Repaired sha (MerkleNode.calculateHash sha n).2 :=
      calculateHash_repairs sha n
    have hfl2 : filesLeafB (MerkleNode.calculateHash sha n).2 = true :=
      calculateHash_filesLeaf sha n hfl
    have hchild : ∀ c ∈ (MerkleNode.calculateHash sha n).2.children,
        verifyNodeIntegrity sha c = (true, c) := by
      intro c hcm
      by_cases hf : (MerkleNode.calculateHash sha n).2.isFile = true
      · rw [filesLeafB_file_no_children _ hfl2 hf] at hcm
        cases hcm
      · exact verifyNodeIntegrity_repaired sha c
          (Repaired.child sha _ hrep2 (by simpa using hf) c hcm)
          (filesLeafB_child _ hfl2 c hcm)
    rw [verifyListIntegrity_of_fixed sha _ hchild]
    simp
  · simp [h]

/-! ### The specification-side hash (C1)

`specHash` transcribes the specification text: a file hashes to its
`contentHash`; a directory with children hashes to the digest of the
concatenation, over children sorted lexicographically by name, of
`"<name>:<childHash>;"`; an empty directory hashes to the digest of its own
name. -/

def specHash (sha : String → String) (n : MerkleNode) : String :=
  if n.isFile then n.contentHash
  else if n.children.isEmpty then sha n.name
  else sha (concatStr ((sortByName n.children).attach.map
      (fun x => x.1.name ++ ":" ++ specHash sha x.1 ++ ";")))
termination_by numNodes n
decreasing_by
  exact numNodes_lt_of_mem (sortByName_mem x.2)

theorem sortedTreeListB_iff (cs : List MerkleNode) :
    sortedTreeListB cs = true ↔ ∀ c ∈ cs, sortedTreeB c = true := by
  induction cs with
  | nil => simp [sortedTreeListB]
  | cons c cs ih => simp [sortedTreeListB, ih]

theorem sortedTreeB_child (n : MerkleNode) (h : sortedTreeB n = true) :
    ∀ c ∈ n.children, sortedTreeB c = true := by
  cases n with
  | mk a b c d e f g =>
    simp only [sortedTreeB, Bool.and_eq_true] at h
    simpa [sortedTreeListB_iff] using h.2

theorem sortedTreeB_sortedB (n : MerkleNode) (h : sortedTreeB n = true) :
    sortedB n.children = true := by
  cases n with
  | mk a b c d e f g =>
    simp only [sortedTreeB, Bool.and_eq_true] at h
    simpa using h.1

/-- On every node whose children maps satisfy the `std::map` ordering
    invariant, `calculateHash` computes exactly the hash described by the
    specification. -/
theorem calculateHash_fst_eq_specHash (sha : String → String) :
    ∀ n : MerkleNode, sortedTreeB n = true →
      (MerkleNode.calculateHash sha n).1 = specHash sha n := by
  refine MerkleNode.strongInd _ (fun n ih hs => ?_)
  by_cases hf : n.isFile = true
  · rw [calculateHash_file sha n hf, specHash]
    simp [hf]
  · have hf2 : n.isFile = false := by simpa using hf
    by_cases hc : n.children = []
    · rw [calculateHash_dir_empty sha n hf2 hc, specHash]
      simp [hf2, hc]
    · rw [calculateHash_dir sha n hf2 hc, specHash]
      simp only [hf2, Bool.false_eq_true, if_false,
        List.isEmpty_iff, hc, if_neg hc]
      congr 1
      rw [sortByName_sorted_id n.children (sortedTreeB_sortedB n hs)]
      rw [List.attach_map_val n.children
        (fun c => c.name ++ ":" ++ specHash sha c ++ ";")]
      congr 1
      refine List.map_congr_left (fun c hcm => ?_)
      rw [childPiece, ih c hcm (sortedTreeB_child n hs c hcm)]

/-! ### MerkleTree::findNodeRecursive

The source tests the node itself first, then iterates `node->children`
(ascending map order) and returns the first non-null recursive result. -/

mutual
def findNodeRecursive (name : String) : MerkleNode → Option MerkleNode
  | .mk n h c ch f sz cs =>
    if n = name then some (.mk n h c ch f sz cs)
    else findNodeInChildren name cs
def findNodeInChildren (name : String) : List MerkleNode → Option MerkleNode
  | [] => none
  | c :: cs =>
    match findNodeRecursive name c with
    | some r => some r
    | none => findNodeInChildren name cs
end

/-- Specification-side traversal order: pre-order depth-first, the node before
    its children, children in lexicographically increasing name order. -/
def preorderSpec (n : MerkleNode) : List MerkleNode :=
  n :: ((sortByName n.children).attach.map (fun x => preorderSpec x.1)).flatten
termination_by numNodes n
decreasing_by
  exact numNodes_lt_of_mem (sortByName_mem x.2)

theorem findNodeInChildren_eq (q : String) (cs : List MerkleNode)
    (h : ∀ c ∈ cs, findNodeRecursive q c =
      (preorderSpec c).find? (fun x => x.name == q)) :
    findNodeInChildren q cs =
      ((cs.map preorderSpec).flatten).find? (fun x => x.name == q) := by
  induction cs with
  | nil => rw [findNodeInChildren]; simp
  | cons c cs ih =>
    rw [findNodeInChildren]
    rw [List.map_cons, List.flatten_cons, List.find?_append]
    rw [← h c (by simp), ih (fun c hc => h c (by simp [hc]))]
    cases findNodeRecursive q c with
    | none => simp [Option.or]
    | some r => simp [Option.or]

/-- MerkleTree::findNodeRecursive performs exactly a pre-order depth-first
    search, visiting each node before its children and a directory's children
    in ascending name order, returning the first exact name match. -/
theorem findNodeRecursive_eq (q : String) :
    ∀ n : MerkleNode, sortedTreeB n = true →
      findNodeRecursive q n = (preorderSpec n).find? (fun x => x.name == q) := by
  refine MerkleNode.strongInd _ (fun n ih hs => ?_)
  cases n with
  | mk a b c d e f g =>
    rw [findNodeRecursive, preorderSpec]
    have hsc : sortByName (MerkleNode.mk a b c d e f g).children =
        (MerkleNode.mk a b c d e f g).children :=
      sortByName_sorted_id _ (sortedTreeB_sortedB _ hs)
    simp only [MerkleNode.children_mk] at hsc
    simp only [MerkleNode.children_mk]
    rw [hsc, List.attach_map_val g preorderSpec]
    by_cases h : a = q
    · rw [if_pos h]
      rw [List.find?_cons_of_pos _ (by simp [h])]
    · rw [if_neg h]
      rw [List.find?_cons_of_neg _ (by simp [h])]
      exact findNodeInChildren_eq q g
        (fun ch hc => ih ch (by simpa using hc)
          (sortedTreeB_child _ hs ch (by simpa using hc)))

/-! ### MerkleTree::calculateStatsRecursive / getTreeStats

The C++ helper increments three accumulators: a file node bumps the file count
and adds its size and is not descended into; a directory node bumps the
directory count and recurses into every child. -/

mutual
def calculateStatsRecursive (n : MerkleNode) (acc : Nat × Nat × Nat) :
    Nat × Nat × Nat :=
  match n with
  | .mk _ _ _ _ true sz _ => (acc.1 + 1, acc.2.1, acc.2.2 + sz)
  | .mk _ _ _ _ false _ cs => calculateStatsList cs (acc.1, acc.2.1 + 1, acc.2.2)
def calculateStatsList : List MerkleNode → (Nat × Nat × Nat) → Nat × Nat × Nat
  | [], acc => acc
  | c :: cs, acc => calculateStatsList cs (calculateStatsRecursive c acc)
end

/-! Specification-side counters: number of file nodes, number of directory
    nodes (empty directories included), and the sum of `fileSize` over file
    nodes, over the whole graph. -/

mutual
def countFiles : MerkleNode → Nat
  | .mk _ _ _ _ f _ cs => (if f then 1 else 0) + countFilesList cs
def countFilesList : List MerkleNode → Nat
  | [] => 0
  | c :: cs => countFiles c + countFilesList cs
end

mutual
def countDirs : MerkleNode → Nat
  | .mk _ _ _ _ f _ cs => (if f then 0 else 1) + countDirsList cs
def countDirsList : List MerkleNode → Nat
  | [] => 0
  | c :: cs => countDirs c + countDirsList cs
end

mutual
def totalFileSize : MerkleNode → Nat
  | .mk _ _ _ _ f sz cs => (if f then sz else 0) + totalFileSizeList cs
def totalFileSizeList : List MerkleNode → Nat
  | [] => 0
  | c :: cs => totalFileSize c + totalFileSizeList cs
end

theorem calculateStatsRecursive_eq :
    ∀ n : MerkleNode, filesLeafB n = true → ∀ acc : Nat × Nat × Nat,
      calculateStatsRecursive n acc =
        (acc.1 + countFiles n, acc.2.1 + countDirs n, acc.2.2 + totalFileSize n) := by
  refine MerkleNode.strongInd _ (fun n ih hfl acc => ?_)
  cases n with
  | mk a b c d e f g =>
    cases e with
    | true =>
      have hg : g = [] := by
        simpa using filesLeafB_file_no_children _ hfl (by simp)
      subst hg
      simp [calculateStatsRecursive, countFiles, countDirs, totalFileSize,
        countFilesList, countDirsList, totalFileSizeList]
    | false =>
      rw [calculateStatsRecursive]
      have hlist : ∀ cs : List MerkleNode, (∀ c ∈ cs, filesLeafB c = true) →
          (∀ c ∈ cs, ∀ acc2 : Nat × Nat × Nat, calculateStatsRecursive c acc2 =
            (acc2.1 + countFiles c, acc2.2.1 + countDirs c, acc2.2.2 + totalFileSize c)) →
          ∀ acc2 : Nat × Nat × Nat, calculateStatsList cs acc2 =
            (acc2.1 + countFilesList cs, acc2.2.1 + countDirsList cs,
              acc2.2.2 + totalFileSizeList cs) := by
        intro cs
        induction cs with
        | nil => intro _ _ acc2; simp [calculateStatsList, countFilesList,
            countDirsList, totalFileSizeList]
        | cons c cs ihl =>
          intro hall hrec acc2
          rw [calculateStatsList]
          rw [hrec c (by simp)]
          rw [ihl (fun c hc => hall c (by simp [hc]))
            (fun c hc => hrec c (by simp [hc]))]
          simp [countFilesList, countDirsList, totalFileSizeList]
          omega
      have := hlist g (filesLeafB_child _ hfl)
        (fun c hc => ih c hc (filesLeafB_child _ hfl c hc))
      rw [this (acc.1, acc.2.1 + 1, acc.2.2)]
      simp [countFiles, countDirs, totalFileSize]
      omega

/-! ### MerkleTree::hash_file_content

The C++ loop reads the file in windows of `CHUNK_SIZE` bytes; each non-empty
window is appended to the accumulated whole content and its digest is appended
to `chunkHashes`; after the loop the digest of the accumulated content is the
`contentHash` and the file size (taken from `tellg`, i.e. the byte length of
the content) completes the returned triple. A chunk size of `0` would loop
forever in the C++ code and is unreachable (the configuration is validated to
be at least 1024); the model returns no chunks in that case. -/

def chunksOfAux : Nat → Nat → List Char → List (List Char)
  | _, _, [] => []
  | _, 0, _ :: _ => []
  | 0, _ + 1, _ :: _ => []
  | fuel + 1, c + 1, x :: xs =>
    ((x :: xs).take (c + 1)) :: chunksOfAux fuel (c + 1) ((x :: xs).drop (c + 1))

/-- Consecutive windows of `c` characters. The structural fuel (initialised to
    the content length, an upper bound on the number of windows) only encodes
    termination of the read loop; `chunksOfAux_fuel_irrel` shows any
    sufficiently large fuel computes the same windows. -/
def chunksOf (c : Nat) (l : List Char) : List (List Char) :=
  chunksOfAux l.length c l

theorem chunksOfAux_nil (fuel c : Nat) : chunksOfAux fuel c [] = [] := by
  cases fuel <;> cases c <;> rfl

theorem chunksOfAux_fuel_irrel (fuel1 fuel2 c : Nat) (l : List Char)
    (h1 : l.length ≤ fuel1) (h2 : l.length ≤ fuel2) :
    chunksOfAux fuel1 c l = chunksOfAux fuel2 c l := by
  induction fuel1 generalizing fuel2 l with
  | zero =>
    cases l with
    | nil => rw [chunksOfAux_nil, chunksOfAux_nil]
    | cons x xs => simp at h1
  | succ fuel ih =>
    cases l with
    | nil => rw [chunksOfAux_nil, chunksOfAux_nil]
    | cons x xs =>
      cases c with
      | zero => cases fuel2 with
        | zero => simp at h2
        | succ f2 => rfl
      | succ c =>
        cases fuel2 with
        | zero => simp at h2
        | succ f2 =>
          rw [chunksOfAux, chunksOfAux]
          simp only [List.length_cons] at h1 h2
          refine congrArg _ (ih f2 _ ?_ ?_) <;> simp <;> omega

theorem chunksOf_cons (c : Nat) (x : Char) (xs : List Char) :
    chunksOf (c + 1) (x :: xs) =
      ((x :: xs).take (c + 1)) :: chunksOf (c + 1) ((x :: xs).drop (c + 1)) := by
  rw [chunksOf, chunksOf]
  simp only [List.length_cons]
  rw [chunksOfAux]
  refine congrArg _ (chunksOfAux_fuel_irrel _ _ _ _ ?_ ?_) <;> simp

def hash_file_content (sha : String → String) (chunkSize : Nat) (content : List Char) :
    String × Nat × List String :=
  let chunks := chunksOf chunkSize content
  let entire := chunks.foldl (fun acc ch => acc ++ String.mk ch) ""
  (sha entire, content.length, chunks.map (fun ch => sha (String.mk ch)))

theorem chunksOf_nil (c : Nat) : chunksOf c [] = [] := chunksOfAux_nil 0 c

theorem chunksOf_length (c : Nat) (hc : 0 < c) (l : List Char) :
    (chunksOf c l).length = (l.length + c - 1) / c := by
  have main : ∀ k : Nat, ∀ l : List Char, l.length ≤ k →
      (chunksOf c l).length = (l.length + c - 1) / c := by
    intro k
    induction k with
    | zero =>
      intro l hl
      have hnil : l = [] := List.eq_nil_of_length_eq_zero (by omega)
      subst hnil
      rw [chunksOf_nil]
      simp
      rw [Nat.div_eq_of_lt (by omega)]
    | succ k ih =>
      intro l hl
      cases l with
      | nil =>
        rw [chunksOf_nil]
        simp
        rw [Nat.div_eq_of_lt (by omega)]
      | cons x xs =>
        cases c with
        | zero => omega
        | succ c =>
          rw [chunksOf_cons]
          simp only [List.length_cons, List.drop_succ_cons, List.length_drop] at hl ⊢
          by_cases h : xs.length ≤ c
          · have hd : List.drop c xs = [] := List.drop_eq_nil_of_le h
            rw [hd, chunksOf_nil]
            have h1 : (xs.length + 1 + c) / (c + 1) = 1 :=
              Nat.div_eq_of_lt_le (by omega) (by omega)
            simp
            omega
          · have e : xs.length + 1 + (c + 1) - 1 =
                (xs.length - c + (c + 1) - 1) + (c + 1) := by omega
            rw [e, Nat.add_div_right _ (by omega)]
            have := ih (List.drop c xs) (by simp; omega)
            simp only [List.length_drop] at this
            rw [this]
  exact main l.length l (Nat.le_refl _)

theorem chunksOf_flatten (c : Nat) (hc : 0 < c) (l : List Char) :
    (chunksOf c l).flatten = l := by
  have main : ∀ k : Nat, ∀ l : List Char, l.length ≤ k → (chunksOf c l).flatten = l := by
    intro k
    induction k with
    | zero =>
      intro l hl
      have hnil : l = [] := List.eq_nil_of_length_eq_zero (by omega)
      subst hnil
      rw [chunksOf_nil]
      rfl
    | succ k ih =>
      intro l hl
      cases l with
      | nil => rw [chunksOf_nil]; rfl
      | cons x xs =>
        cases c with
        | zero => omega
        | succ c =>
          rw [chunksOf_cons]
          simp only [List.flatten_cons]
          rw [ih ((x :: xs).drop (c + 1)) (by simp at hl ⊢; omega)]
          exact List.take_append_drop _ _
  exact main l.length l (Nat.le_refl _)

theorem chunksOf_eq_range (c : Nat) (hc : 0 < c) (l : List Char) :
    chunksOf c l =
      (List.range ((l.length + c - 1) / c)).map (fun i => (l.drop (c * i)).take c) := by
  have main : ∀ k : Nat, ∀ l : List Char, l.length ≤ k →
      chunksOf c l =
        (List.range ((l.length + c - 1) / c)).map (fun i => (l.drop (c * i)).take c) := by
    intro k
    induction k with
    | zero =>
      intro l hl
      have hnil : l = [] := List.eq_nil_of_length_eq_zero (by omega)
      subst hnil
      rw [chunksOf_nil]
      simp only [List.length_nil]
      rw [Nat.div_eq_of_lt (by omega)]
      simp
    | succ k ih =>
      intro l hl
      cases l with
      | nil =>
        rw [chunksOf_nil]
        simp only [List.length_nil]
        rw [Nat.div_eq_of_lt (by omega)]
        simp
      | cons x xs =>
        cases c with
        | zero => omega
        | succ c =>
          have hlen := chunksOf_length (c + 1) (by omega) (x :: xs)
          have hlen2 := chunksOf_length (c + 1) (by omega) ((x :: xs).drop (c + 1))
          have hstep := chunksOf_cons c x xs
          have hk : ((x :: xs).length + (c + 1) - 1) / (c + 1) =
              (((x :: xs).drop (c + 1)).length + (c + 1) - 1) / (c + 1) + 1 := by
            rw [← hlen, ← hlen2, hstep]
            simp
          have hrec := ih ((x :: xs).drop (c + 1)) (by simp at hl ⊢; omega)
          rw [hstep, hk, List.range_succ_eq_map, hrec]
          simp only [List.map_cons, List.map_map]
          refine congr_arg₂ List.cons (by simp) ?_
          apply List.map_congr_left
          intro i _
          simp only [Function.comp]
          rw [List.drop_drop]
          congr 2
          simp only [Nat.succ_eq_add_one]
          ring
  exact main l.length l (Nat.le_refl _)

theorem string_mk_append (a b : List Char) : String.mk a ++ String.mk b = String.mk (a ++ b) :=
  rfl

theorem foldl_append_chunks (chs : List (List Char)) (a : List Char) :
    chs.foldl (fun acc ch => acc ++ String.mk ch) (String.mk a) =
      String.mk (a ++ chs.flatten) := by
  induction chs generalizing a with
  | nil => simp
  | cons ch rest ih =>
    simp only [List.foldl_cons, string_mk_append, ih, List.flatten_cons]
    rw [List.append_assoc]

/-- The accumulated whole content equals the original content, so the returned
    `contentHash` is the digest of the whole file. -/
theorem hash_file_content_fst (sha : String → String) (c : Nat) (hc : 0 < c)
    (l : List Char) : (hash_file_content sha c l).1 = sha (String.mk l) := by
  rw [hash_file_content]
  simp only []
  have h0 : ("" : String) = String.mk [] := rfl
  rw [h0, foldl_append_chunks, List.nil_append, chunksOf_flatten c hc l]

/-! ### The tree container -/

namespace MTFSConstants

def DEFAULT_CHUNK_SIZE : Nat := 1024 * 1024

def MAX_CHUNK_SIZE : Nat := 100 * 1024 * 1024

def MIN_CHUNK_SIZE : Nat := 1024

end MTFSConstants

/-- The MerkleTree object: root (null until a build succeeds), the
    content-hash index `file_objects` (a `std::map<string, shared_ptr>` keyed
    by content digest, modelled like `children` as a sorted association list),
    the flat registry `nodes` of every node created by the last build, and the
    configured `CHUNK_SIZE`. -/
structure MerkleTree where
  root : Option MerkleNode
  file_objects : List (String × MerkleNode)
  nodes : List MerkleNode
  CHUNK_SIZE : Nat

/-- MerkleTree::setChunkSize: validates the bounds before assigning; on a
    violation it throws (modelled as the error component) and the tree is
    returned untouched, because the throw happens before the assignment. -/
def MerkleTree.setChunkSize (t : MerkleTree) (chunkSize : Nat) :
    MerkleTree × Except String Unit :=
  if chunkSize < MTFSConstants.MIN_CHUNK_SIZE ∨ chunkSize > MTFSConstants.MAX_CHUNK_SIZE then
    (t, .error ("Invalid chunk size. Must be between " ++
      toString MTFSConstants.MIN_CHUNK_SIZE ++ " and " ++
      toString MTFSConstants.MAX_CHUNK_SIZE ++ " bytes"))
  else ({ t with CHUNK_SIZE := chunkSize }, .ok ())

/-- MerkleTree::getTreeStats: (0, 0, 0) on a null root, otherwise the
    recursive accumulation starting from zeroed counters. -/
def MerkleTree.getTreeStats (t : MerkleTree) : Nat × Nat × Nat :=
  match t.root with
  | none => (0, 0, 0)
  | some r => calculateStatsRecursive r (0, 0, 0)

/-- MerkleTree::verifyTreeIntegrity: a null root is trivially valid; otherwise
    verify the root node (the node graph the call leaves behind is returned
    alongside the verdict, since verification rewrites hash fields). -/
def MerkleTree.verifyTreeIntegrity (sha : String → String) (t : MerkleTree) :
    Bool × MerkleTree :=
  match t.root with
  | none => (true, t)
  | some r =>
    let z := verifyNodeIntegrity sha r
    (z.1, { t with root := some z.2 })

/-- MerkleTree::findNode: null root finds nothing; otherwise recursive
    depth-first search from the root. -/
def MerkleTree.findNode (t : MerkleTree) (name : String) : Option MerkleNode :=
  match t.root with
  | none => none
  | some r => findNodeRecursive name r

/-! ### MerkleTree::nodeToJson / exportToJson

The source emits children in sorted-name order; on the map's ascending key
sequence that sort is the identity, so the fold below walks the stored
(sorted) children directly. Braces are written with hex escapes. -/

mutual
def nodeToJson (node : MerkleNode) (depth : Nat) : String :=
  match node with
  | .mk n h c ch f sz cs =>
    let indent := String.mk (List.replicate (depth * 2) ' ')
    let childIndent := String.mk (List.replicate ((depth + 1) * 2) ' ')
    let head := indent ++ "\"" ++ n ++ "\": \x7b\n" ++
      childIndent ++ "\"type\": \"" ++ (if f then "file" else "directory") ++ "\",\n" ++
      childIndent ++ "\"hash\": \"" ++ h ++ "\""
    let mid :=
      if f then
        ",\n" ++ childIndent ++ "\"size\": " ++ toString sz ++
        ",\n" ++ childIndent ++ "\"chunks\": " ++ toString ch.length ++
        ",\n" ++ childIndent ++ "\"content_hash\": \"" ++ c ++ "\""
      else if cs.isEmpty then ""
      else ",\n" ++ childIndent ++ "\"children\": \x7b\n" ++
        nodeToJsonChildren cs (depth + 2) ++ childIndent ++ "\x7d"
    head ++ mid ++ "\n" ++ indent ++ "\x7d"
def nodeToJsonChildren : List MerkleNode → Nat → String
  | [], _ => ""
  | [c], depth => nodeToJson c depth ++ "\n"
  | c :: c2 :: cs, depth => nodeToJson c depth ++ ",\n" ++ nodeToJsonChildren (c2 :: cs) depth
end

/-- MerkleTree::exportToJson: an empty tree exports as braces only. -/
def MerkleTree.exportToJson (t : MerkleTree) : String :=
  match t.root with
  | none => "\x7b\x7d"
  | some r => "\x7b\n" ++ nodeToJson r 1 ++ "\n\x7d"

/-! ### The filesystem model and MerkleTree::build_node / build_tree

A path names either a regular file (whose content is `none` when opening it
for reading fails) or a directory (whose `readable` flag is false when
creating the directory iterator throws). `build_node` mirrors the source:
the node is constructed and pushed into the `nodes` registry FIRST; a file is
then chunk-hashed and indexed in `file_objects` keyed by its content hash
(overwriting an earlier entry with an equal digest); a directory's entries are
built one by one in enumeration order, a failing entry being caught, warned
about and skipped, while an unreadable directory itself throws. Because the
registry entry aliases the node in C++, the later field assignments are
modelled by replacing the registry slot with the finished node; on the throw
paths the freshly constructed (still empty) node stays in the registry exactly
as in the source. The hash rewriting performed later by `calculateHash`
through shared pointers is not replayed into `file_objects`/`nodes`; no claim
inspects those copies' `hash` field. -/

inductive FS where
  | file (name : String) (content : Option (List Char))
  | dir (name : String) (readable : Bool) (entries : List FS)

structure BuildState where
  file_objects : List (String × MerkleNode)
  nodes : List MerkleNode

/-- Sorted-map insertion for the content index (`file_objects[key] = node`). -/
def insertA (k : String) (v : MerkleNode) :
    List (String × MerkleNode) → List (String × MerkleNode)
  | [] => [(k, v)]
  | p :: ps =>
    if strLt k p.1 then (k, v) :: p :: ps
    else if k = p.1 then (k, v) :: ps
    else p :: insertA k v ps

def lookupA (m : List (String × MerkleNode)) (k : String) : Option MerkleNode :=
  (m.find? (fun p => p.1 == k)).map (fun p => p.2)

mutual
def build_node (sha : String → String) (chunkSize : Nat) :
    FS → BuildState → (Except String MerkleNode) × BuildState
  | .file nm content, st =>
    let node0 : MerkleNode := .mk nm "" "" [] true 0 []
    let idx := st.nodes.length
    let st1 : BuildState := ⟨st.file_objects, st.nodes ++ [node0]⟩
    match content with
    | none =>
      (.error ("Error processing file " ++ nm ++ ": Cannot open file: " ++ nm), st1)
    | some data =>
      let r := hash_file_content sha chunkSize data
      let node : MerkleNode := .mk nm "" r.1 r.2.2 true r.2.1 []
      (.ok node, ⟨insertA r.1 node st1.file_objects, st1.nodes.set idx node⟩)
  | .dir nm readable entries, st =>
    let node0 : MerkleNode := .mk nm "" "" [] false 0 []
    let idx := st.nodes.length
    let st1 : BuildState := ⟨st.file_objects, st.nodes ++ [node0]⟩
    if readable then
      let z := build_children sha chunkSize entries [] st1
      let node : MerkleNode := .mk nm "" "" [] false 0 z.1
      (.ok node, ⟨z.2.file_objects, z.2.nodes.set idx node⟩)
    else
      (.error ("Error reading directory " ++ nm), st1)
def build_children (sha : String → String) (chunkSize : Nat) :
    List FS → List MerkleNode → BuildState → List MerkleNode × BuildState
  | [], m, st => (m, st)
  | e :: es, m, st =>
    match build_node sha chunkSize e st with
    | (.ok child, st2) => build_children sha chunkSize es (mapInsert child m) st2
    | (.error _, st2) => build_children sha chunkSize es m st2
end

/-- MerkleTree::build_tree. Path validation happens first and throws before
    any member is touched. Then `file_objects` and `nodes` are cleared — but
    NOT `root`, which is only reassigned if `build_node` returns — and the
    root is built and its hashes computed. On a build failure the tree keeps
    its previous `root` next to the cleared-and-partially-refilled index and
    registry. -/
def MerkleTree.build_tree (sha : String → String) (target : Option FS) (t : MerkleTree) :
    (Except String MerkleNode) × MerkleTree :=
  match target with
  | none => (.error "Directory does not exist", t)
  | some (.file nm _) => (.error ("Path is not a directory: " ++ nm), t)
  | some (.dir nm readable entries) =>
    let z := build_node sha t.CHUNK_SIZE (.dir nm readable entries) ⟨[], []⟩
    match z.1 with
    | .error e => (.error e, ⟨t.root, z.2.file_objects, z.2.nodes, t.CHUNK_SIZE⟩)
    | .ok node =>
      let r := MerkleNode.calculateHash sha node
      (.ok r.2, ⟨some r.2, z.2.file_objects, z.2.nodes, t.CHUNK_SIZE⟩)

/-! Specification-side list of the file nodes a build processes (and indexes),
    in processing order: depth-first over the enumeration order, skipping
    unreadable files and unreadable directories (whose subtrees the build
    never reaches — an unreadable directory throws before any of its entries
    is processed, and is then skipped by its parent). -/

mutual
def fsFiles (sha : String → String) (chunkSize : Nat) : FS → List MerkleNode
  | .file _ none => []
  | .file nm (some data) =>
    let r := hash_file_content sha chunkSize data
    [.mk nm "" r.1 r.2.2 true r.2.1 []]
  | .dir _ false _ => []
  | .dir _ true entries => fsFilesList sha chunkSize entries
def fsFilesList (sha : String → String) (chunkSize : Nat) : List FS → List MerkleNode
  | [] => []
  | e :: es => fsFiles sha chunkSize e ++ fsFilesList sha chunkSize es
end

/-! ### Content-index characterization (C8) -/

def foldIndex (m : List (String × MerkleNode)) (l : List MerkleNode) :
    List (String × MerkleNode) :=
  l.foldl (fun acc v => insertA v.contentHash v acc) m

theorem lookupA_insertA (k : String) (v : MerkleNode) (m : List (String × MerkleNode))
    (q : String) :
    lookupA (insertA k v m) q = if q = k then some v else lookupA m q := by
  induction m with
  | nil =>
    rw [insertA, lookupA]
    by_cases h : q = k
    · simp [h]
    · simp [lookupA, List.find?, show (k == q) = false by simpa using (Ne.symm h), h]
  | cons p ps ih =>
    rw [insertA]
    by_cases h1 : strLt k p.1
    · rw [if_pos h1]
      by_cases h : q = k
      · simp [lookupA, List.find?, h]
      · simp only [lookupA, List.find?, show (k == q) = false by simpa using (Ne.symm h)]
        simp [lookupA, List.find?, h]
    · rw [if_neg h1]
      by_cases h2 : k = p.1
      · rw [if_pos h2]
        by_cases h : q = k
        · simp [lookupA, List.find?, h]
        · simp only [lookupA, List.find?, show (k == q) = false by simpa using (Ne.symm h)]
          have : (p.1 == q) = false := by
            simp only [beq_eq_false_iff_ne, ne_eq]
            rw [← h2]
            exact fun hh => h (hh.symm)
          simp [lookupA, List.find?, this, h]
      · rw [if_neg h2]
        by_cases h : q = p.1
        · have hqk : ¬ q = k := fun hqk => h2 (by rw [← hqk, h])
          have hbeq : (p.1 == q) = true := by simp [h]
          simp [lookupA, List.find?, hbeq, hqk]
        · have hbeq : (p.1 == q) = false := by
            simp only [beq_eq_false_iff_ne, ne_eq]
            exact fun hh => h hh.symm
          simp only [lookupA, List.find?, hbeq]
          simpa [lookupA] using ih

theorem option_or_assoc (a b c : Option MerkleNode) :
    (a.or b).or c = a.or (b.or c) := by
  cases a <;> simp [Option.or]

theorem lookupA_foldIndex (l : List MerkleNode) (m : List (String × MerkleNode))
    (q : String) :
    lookupA (foldIndex m l) q =
      (l.reverse.find? (fun v => v.contentHash == q)).or (lookupA m q) := by
  induction l generalizing m with
  | nil => simp [foldIndex, Option.or]
  | cons v l ih =>
    have hstep : foldIndex m (v :: l) = foldIndex (insertA v.contentHash v m) l := rfl
    rw [hstep, ih]
    rw [List.reverse_cons, List.find?_append]
    rw [option_or_assoc]
    congr 1
    rw [lookupA_insertA]
    by_cases h : q = v.contentHash
    · simp [List.find?, h, Option.or]
    · have hbeq : (v.contentHash == q) = false := by
        simp only [beq_eq_false_iff_ne, ne_eq]
        exact fun hh => h hh.symm
      simp [List.find?, hbeq, h, Option.or]

theorem mem_insertA {p : String × MerkleNode} {k : String} {v : MerkleNode}
    {m : List (String × MerkleNode)} (h : p ∈ insertA k v m) :
    p = (k, v) ∨ p ∈ m := by
  induction m with
  | nil => simp [insertA] at h; exact Or.inl h
  | cons x xs ih =>
    rw [insertA] at h
    by_cases h1 : strLt k x.1
    · rw [if_pos h1] at h
      rcases List.mem_cons.mp h with rfl | h
      · exact Or.inl rfl
      · exact Or.inr h
    · rw [if_neg h1] at h
      by_cases h2 : k = x.1
      · rw [if_pos h2] at h
        rcases List.mem_cons.mp h with rfl | h
        · exact Or.inl rfl
        · exact Or.inr (List.mem_cons_of_mem _ h)
      · rw [if_neg h2] at h
        rcases List.mem_cons.mp h with rfl | h
        · exact Or.inr (List.mem_cons_self _ _)
        · rcases ih h with h | h
          · exact Or.inl h
          · exact Or.inr (List.mem_cons_of_mem _ h)

theorem mem_foldIndex {p : String × MerkleNode} {m : List (String × MerkleNode)}
    {l : List MerkleNode} (h : p ∈ foldIndex m l) :
    p ∈ m ∨ ∃ v ∈ l, p = (v.contentHash, v) := by
  induction l generalizing m with
  | nil => exact Or.inl h
  | cons v l ih =>
    have hstep : foldIndex m (v :: l) = foldIndex (insertA v.contentHash v m) l := rfl
    rw [hstep] at h
    rcases ih h with h | h
    · rcases mem_insertA h with rfl | h
      · exact Or.inr ⟨v, by simp⟩
      · exact Or.inl h
    · rcases h with ⟨w, hw, rfl⟩
      exact Or.inr ⟨w, by simp [hw]⟩

/-! Strong induction over the filesystem model. -/

def FS.entries : FS → List FS
  | .file _ _ => []
  | .dir _ _ es => es

mutual
def numFS : FS → Nat
  | .file _ _ => 1
  | .dir _ _ es => 1 + numFSList es
def numFSList : List FS → Nat
  | [] => 0
  | e :: es => numFS e + numFSList es
end

theorem numFS_pos (f : FS) : 0 < numFS f := by
  cases f with
  | file a b => simp [numFS]
  | dir a b c => simp [numFS]

theorem numFSList_le_of_mem {e : FS} {l : List FS} (h : e ∈ l) :
    numFS e ≤ numFSList l := by
  induction l with
  | nil => cases h
  | cons x xs ih =>
    rcases List.mem_cons.mp h with rfl | h2
    · simp [numFSList]
    · have := ih h2
      simp [numFSList]
      omega

theorem numFS_lt_of_mem {e f : FS} (h : e ∈ f.entries) : numFS e < numFS f := by
  cases f with
  | file a b => cases h
  | dir a b es =>
    have := numFSList_le_of_mem (l := es) (by simpa [FS.entries] using h)
    simp [numFS]
    omega

theorem FS.strongInduction (P : FS → Prop)
    (step : ∀ f : FS, (∀ e ∈ f.entries, P e) → P f) : ∀ f, P f := by
  have aux : ∀ k : Nat, ∀ f : FS, numFS f ≤ k → P f := by
    intro k
    induction k with
    | zero => intro f hf; have := numFS_pos f; omega
    | succ k ih =>
      intro f hf
      refine step f (fun e he => ih e ?_)
      have := numFS_lt_of_mem he
      omega
  exact fun f => aux (numFS f) f (Nat.le_refl _)

/-- The content index written by a build call: every node that `build_node`
    processes as a readable file is inserted, keyed by its content hash, in
    processing order, on top of whatever the index held before. -/
theorem build_node_file_objects (sha : String → String) (c : Nat) :
    ∀ f : FS, ∀ st : BuildState,
      ((build_node sha c f st).2).file_objects =
        foldIndex st.file_objects (fsFiles sha c f) := by
  refine FS.strongInduction _ (fun f ih => ?_)
  cases f with
  | file nm content =>
    cases content with
    | none => intro st; rfl
    | some data => intro st; rfl
  | dir nm readable es =>
    cases readable with
    | false => intro st; rfl
    | true =>
      intro st
      rw [build_node, fsFiles]
      simp only []
      have hlist : ∀ es2 : List FS, (∀ e ∈ es2, ∀ st2 : BuildState,
          ((build_node sha c e st2).2).file_objects =
            foldIndex st2.file_objects (fsFiles sha c e)) →
          ∀ (m : List MerkleNode) (st2 : BuildState),
          ((build_children sha c es2 m st2).2).file_objects =
            foldIndex st2.file_objects (fsFilesList sha c es2) := by
        intro es2
        induction es2 with
        | nil => intro _ m st2; rfl
        | cons e es3 ihl =>
          intro hall m st2
          rw [build_children]
          rcases hbn : build_node sha c e st2 with ⟨res, st3⟩
          have hst3 : st3.file_objects = foldIndex st2.file_objects (fsFiles sha c e) := by
            have := hall e (by simp) st2
            rw [hbn] at this
            exact this
          have hrest := ihl (fun e2 he2 => hall e2 (by simp [he2]))
          cases res with
          | ok child =>
            simp only []
            rw [hrest (mapInsert child m) st3, hst3]
            rw [fsFilesList, foldIndex, foldIndex, foldIndex, ← List.foldl_append]
          | error msg =>
            simp only []
            rw [hrest m st3, hst3]
            rw [fsFilesList, foldIndex, foldIndex, foldIndex, ← List.foldl_append]
      have := hlist es (fun e he => ih e (by simpa [FS.entries] using he)) []
        ⟨st.file_objects, st.nodes ++ [MerkleNode.mk nm "" "" [] false 0 []]⟩
      simpa using this

/-- Every file node a build processes carries `isFile = true`. -/
theorem fsFiles_isFile (sha : String → String) (c : Nat) :
    ∀ f : FS, ∀ v ∈ fsFiles sha c f, v.isFile = true := by
  refine FS.strongInduction _ (fun f ih => ?_)
  cases f with
  | file nm content =>
    cases content with
    | none => intro v hv; cases hv
    | some data =>
      intro v hv
      rw [fsFiles] at hv
      simp only [List.mem_singleton] at hv
      subst hv
      rfl
  | dir nm readable es =>
    cases readable with
    | false => intro v hv; cases hv
    | true =>
      intro v hv
      rw [fsFiles] at hv
      have hlist : ∀ es2 : List FS, (∀ e ∈ es2, ∀ v ∈ fsFiles sha c e, v.isFile = true) →
          ∀ v ∈ fsFilesList sha c es2, v.isFile = true := by
        intro es2
        induction es2 with
        | nil => intro _ v hv; cases hv
        | cons e es3 ihl =>
          intro hall v hv
          rw [fsFilesList] at hv
          rcases List.mem_append.mp hv with hv | hv
          · exact hall e (by simp) v hv
          · exact ihl (fun e2 he2 => hall e2 (by simp [he2])) v hv
      exact hlist es (fun e he => ih e (by simpa [FS.entries] using he)) v hv

/-! ### Demonstration data for witnesses and counterexamples -/

/-- Concrete injective digest standing in for SHA-256 in concrete instances
    (every claim proved here holds for an arbitrary digest function). -/
def demoDigest (s : String) : String := "dig(" ++ s ++ ")"

/-- A freshly constructed tree (default chunk size, nothing built). -/
def demoTree0 : MerkleTree := ⟨none, [], [], 1048576⟩

/-- Inserting a sequence of children into a directory node with addChild, in
    order, as build_node's directory loop does (an addChild error leaves the
    parent unchanged; it cannot occur on a directory parent). -/
def insertAll (parent : MerkleNode) (l : List MerkleNode) : MerkleNode :=
  l.foldl (fun p c =>
    match MerkleNode.addChild p c with
    | .ok p2 => p2
    | .error _ => p) parent

theorem insertAll_dir (nm hsh ct : String) (ch : List String) (sz : Nat)
    (cs0 : List MerkleNode) (l : List MerkleNode) :
    insertAll (.mk nm hsh ct ch false sz cs0) l =
      .mk nm hsh ct ch false sz (l.foldl (fun m c => mapInsert c m) cs0) := by
  induction l generalizing cs0 with
  | nil => rfl
  | cons c l ih =>
    show insertAll (MerkleNode.mk nm hsh ct ch false sz (mapInsert c cs0)) l = _
    rw [ih]
    rfl

/-- Overwriting only the stored `hash` field of a node (the tampering step of
    the verification scenario). -/
def MerkleNode.setHash (n : MerkleNode) (v : String) : MerkleNode :=
  match n with
  | .mk a _ c d e f g => .mk a v c d e f g

theorem setHash_hash (n : MerkleNode) (v : String) : (n.setHash v).hash = v := by
  cases n with
  | mk a b c d e f g => rfl

theorem filesLeafB_setHash (n : MerkleNode) (v : String) :
    filesLeafB (n.setHash v) = filesLeafB n := by
  cases n with
  | mk a b c d e f g => rfl

theorem calculateHash_fst_setHash (sha : String → String) (n : MerkleNode) (v : String) :
    (MerkleNode.calculateHash sha (n.setHash v)).1 =
      (MerkleNode.calculateHash sha n).1 := by
  cases n with
  | mk a b c d e f g => exact calculateHash_fst_hash_irrel sha a v b c d e f g

theorem build_tree_dir_fo (sha : String → String) (t : MerkleTree) (nm : String)
    (readable : Bool) (es : List FS) :
    ((MerkleTree.build_tree sha (some (.dir nm readable es)) t).2).file_objects =
      foldIndex [] (fsFiles sha t.CHUNK_SIZE (.dir nm readable es)) := by
  have h := build_node_file_objects sha t.CHUNK_SIZE (.dir nm readable es) ⟨[], []⟩
  rw [MerkleTree.build_tree]
  rcases hz : build_node sha t.CHUNK_SIZE (.dir nm readable es) ⟨[], []⟩ with ⟨res, st2⟩
  rw [hz] at h
  cases res with
  | error e => simpa [hz] using h
  | ok node => simpa [hz] using h

/-! ### The claims -/

/-- C1: for every file node the computed hash equals the node's `contentHash`;
    for every directory node with at least one child it equals the digest of
    the concatenation, over children sorted lexicographically by name, of
    `"<name>:<childHash>;"` per child (each child hash computed by the same
    rule); for every childless directory it equals the digest of the
    directory's own name, regardless of position in the tree. `specHash` is
    exactly this specification text; the sortedness hypothesis is the
    `std::map` invariant every tree the program builds satisfies. -/
theorem C1_calculateHash_spec (sha : String → String) (n : MerkleNode)
    (hs : sortedTreeB n = true) :
    (MerkleNode.calculateHash sha n).1 = specHash sha n ∧
    (∀ m : MerkleNode, m.isFile = true →
      (MerkleNode.calculateHash sha m).1 = m.contentHash) ∧
    (∀ nm hsh ct : String, ∀ ch : List String, ∀ sz : Nat,
      (MerkleNode.calculateHash sha (.mk nm hsh ct ch false sz [])).1 = sha nm) := by
  refine ⟨calculateHash_fst_eq_specHash sha n hs, ?_, ?_⟩
  · intro m hm
    rw [calculateHash_file sha m hm]
  · intro nm hsh ct ch sz
    rw [calculateHash_dir_empty sha _ (by simp) (by simp)]
    simp

def c1demo : MerkleNode :=
  .mk "root" "" "" [] false 0
    [.mk "a.txt" "" "ha" ["ha"] true 5 [], .mk "sub" "" "" [] false 0 []]

/-- C1 witness: the specification formula evaluated against the computation on
    a concrete two-child directory. -/
theorem C1_witness :
    sortedTreeB c1demo = true ∧
    (MerkleNode.calculateHash demoDigest c1demo).1 = specHash demoDigest c1demo :=
  ⟨by decide, (C1_calculateHash_spec demoDigest c1demo (by decide)).1⟩

/-- C2 (amended): an empty tree verifies as true; a freshly built tree
    verifies as true; overwriting the ROOT's stored hash with any value other
    than its correct hash makes verification fail; but in general the verdict
    of verifyNodeIntegrity depends only on the hash stored at the node it
    starts from, because calculateHash has already rewritten (repaired) every
    descendant's stored hash before the recursion reads it — so overwriting a
    non-root node's stored hash is NOT detected (see C2_tamper_not_detected). -/
theorem C2_verify_root_only (sha : String → String) :
    (∀ fo : List (String × MerkleNode), ∀ ns : List MerkleNode, ∀ cz : Nat,
      (MerkleTree.verifyTreeIntegrity sha ⟨none, fo, ns, cz⟩).1 = true) ∧
    (∀ n : MerkleNode, filesLeafB n = true →
      (verifyNodeIntegrity sha ((MerkleNode.calculateHash sha n).2)).1 = true) ∧
    (∀ t : MerkleNode, filesLeafB t = true → ∀ v : String,
      v ≠ (MerkleNode.calculateHash sha t).1 →
      ∀ fo : List (String × MerkleNode), ∀ ns : List MerkleNode, ∀ cz : Nat,
      (MerkleTree.verifyTreeIntegrity sha ⟨some (t.setHash v), fo, ns, cz⟩).1 = false) ∧
    (∀ t : MerkleNode, filesLeafB t = true →
      ((verifyNodeIntegrity sha t).1 = true ↔
        t.hash = (MerkleNode.calculateHash sha t).1)) := by
  refine ⟨fun fo ns cz => rfl, ?_, ?_, fun t h => verifyNodeIntegrity_eq sha t h⟩
  · intro n h
    rw [verifyNodeIntegrity_repaired sha _ (calculateHash_repairs sha n)
      (calculateHash_filesLeaf sha n h)]
  · intro t h v hv fo ns cz
    show (verifyNodeIntegrity sha (t.setHash v)).1 = false
    have hiff := verifyNodeIntegrity_eq sha (t.setHash v)
      (by rw [filesLeafB_setHash]; exact h)
    have hne : ¬ (t.setHash v).hash = (MerkleNode.calculateHash sha (t.setHash v)).1 := by
      rw [calculateHash_fst_setHash, setHash_hash]
      exact hv
    rcases Bool.eq_false_or_eq_true ((verifyNodeIntegrity sha (t.setHash v)).1)
      with hb | hb
    · exact absurd (hiff.mp hb) hne
    · exact hb

/-- A freshly built two-node tree (root "r" over the empty directory "d"),
    with the stored hash of the NON-ROOT node "d" overwritten by "BAD",
    different from its correct hash `dig(d)`; the root's stored hash is left
    at its correct value. -/
def c2tampered : MerkleNode :=
  .mk "r" "dig(d:dig(d);)" "" [] false 0 [.mk "d" "BAD" "" [] false 0 []]

/-- C2 counterexample: the claim demands that overwriting ANY node's stored
    hash makes verifyTreeIntegrity return false; here the non-root node "d"
    carries stored hash "BAD", which differs from its correct hash, yet
    verification returns true (the parent's recomputation silently repaired
    the field before the check reached it). -/
theorem C2_tamper_not_detected :
    "BAD" ≠ (MerkleNode.calculateHash demoDigest
      (MerkleNode.mk "d" "BAD" "" [] false 0 [])).1 ∧
    c2tampered.hash = (MerkleNode.calculateHash demoDigest c2tampered).1 ∧
    (MerkleTree.verifyTreeIntegrity demoDigest ⟨some c2tampered, [], [], 1048576⟩).1 =
      true := by
  refine ⟨by decide, by decide, ?_⟩
  show (verifyNodeIntegrity demoDigest c2tampered).1 = true
  exact (verifyNodeIntegrity_eq demoDigest c2tampered (by decide)).mpr (by decide)

/-- C2 witness: the root-only characterization instantiated on the concrete
    tampered tree. -/
theorem C2_witness :
    filesLeafB c2tampered = true ∧
    ((verifyNodeIntegrity demoDigest c2tampered).1 = true ↔
      c2tampered.hash = (MerkleNode.calculateHash demoDigest c2tampered).1) :=
  ⟨by decide, (C2_verify_root_only demoDigest).2.2.2 c2tampered (by decide)⟩

/-- C3: for a readable file of `l.length` bytes read with chunk size `c > 0`,
    the returned size is the byte length, the content hash is the digest of
    the whole content (digest of the empty string for an empty file), the
    chunk hashes are the digests of the consecutive `c`-byte windows in file
    order (the last window possibly shorter), their number is ⌈size/c⌉ (0 for
    an empty file), and the content hash does not depend on the chunk size. -/
theorem C3_hash_file_content (sha : String → String) (c : Nat) (hc : 0 < c)
    (l : List Char) :
    (hash_file_content sha c l).2.1 = l.length ∧
    (hash_file_content sha c l).1 = sha (String.mk l) ∧
    (hash_file_content sha c l).2.2 =
      (List.range ((l.length + c - 1) / c)).map
        (fun i => sha (String.mk ((l.drop (c * i)).take c))) ∧
    (hash_file_content sha c l).2.2.length = (l.length + c - 1) / c ∧
    (l = [] → (hash_file_content sha c l).2.2 = [] ∧
      (hash_file_content sha c l).1 = sha "") ∧
    (∀ c2 : Nat, 0 < c2 →
      (hash_file_content sha c2 l).1 = (hash_file_content sha c l).1) := by
  refine ⟨rfl, hash_file_content_fst sha c hc l, ?_, ?_, ?_, ?_⟩
  · show (chunksOf c l).map (fun ch => sha (String.mk ch)) = _
    rw [chunksOf_eq_range c hc l, List.map_map]
    rfl
  · show ((chunksOf c l).map (fun ch => sha (String.mk ch))).length = _
    rw [List.length_map, chunksOf_length c hc l]
  · intro hl
    subst hl
    refine ⟨?_, hash_file_content_fst sha c hc []⟩
    show (chunksOf c []).map (fun ch => sha (String.mk ch)) = []
    rw [chunksOf_nil]
    rfl
  · intro c2 hc2
    rw [hash_file_content_fst sha c hc l, hash_file_content_fst sha c2 hc2 l]

/-- C3 witness: the whole-content hash of a concrete 3-byte file read with
    chunk size 2. -/
theorem C3_witness :
    (0 : Nat) < 2 ∧
    (hash_file_content demoDigest 2 ['h', 'e', 'y']).1 =
      demoDigest (String.mk ['h', 'e', 'y']) :=
  ⟨by decide, (C3_hash_file_content demoDigest 2 (by decide) ['h', 'e', 'y']).2.1⟩

/-- C4: permuting the sequence of addChild insertions of a directory's
    (distinctly named) children changes nothing: the two insertion orders
    yield identical children maps, hence identical computed hashes for the
    node and all descendants — root-hash determinism is independent of the
    filesystem enumeration order. -/
theorem C4_insertion_order_irrelevant (sha : String → String) (nm : String)
    (l1 l2 : List MerkleNode) (hp : List.Perm l1 l2)
    (hnd : (l1.map MerkleNode.name).Nodup) :
    MerkleNode.calculateHash sha (insertAll (.mk nm "" "" [] false 0 []) l1) =
      MerkleNode.calculateHash sha (insertAll (.mk nm "" "" [] false 0 []) l2) := by
  rw [insertAll_dir, insertAll_dir]
  have h1 : l1.foldl (fun m c => mapInsert c m) [] = foldInsert l1 := rfl
  have h2 : l2.foldl (fun m c => mapInsert c m) [] = foldInsert l2 := rfl
  rw [h1, h2, foldInsert_perm_eq l1 l2 hp hnd]

def c4a : MerkleNode := .mk "a" "" "xa" [] true 1 []

def c4b : MerkleNode := .mk "b" "" "xb" [] true 2 []

/-- C4 witness: the two insertion orders of two concrete children produce the
    same hash computation. -/
theorem C4_witness :
    MerkleNode.calculateHash demoDigest
        (insertAll (.mk "r" "" "" [] false 0 []) [c4a, c4b]) =
      MerkleNode.calculateHash demoDigest
        (insertAll (.mk "r" "" "" [] false 0 []) [c4b, c4a]) :=
  C4_insertion_order_irrelevant demoDigest "r" [c4a, c4b] [c4b, c4a]
    (List.Perm.swap c4b c4a []) (by decide)

/-- C5: setChunkSize succeeds and stores `n` exactly when 1024 ≤ n ≤
    104857600; outside the bounds it throws an invalid-chunk-size error and
    the stored chunk size (indeed, the whole tree) is unchanged. -/
theorem C5_setChunkSize (t : MerkleTree) (n : Nat) :
    (1024 ≤ n ∧ n ≤ 104857600 →
      MerkleTree.setChunkSize t n = ({ t with CHUNK_SIZE := n }, .ok ())) ∧
    (n < 1024 ∨ 104857600 < n →
      ∃ msg : String, MerkleTree.setChunkSize t n = (t, .error msg)) := by
  have hmin : MTFSConstants.MIN_CHUNK_SIZE = 1024 := rfl
  have hmax : MTFSConstants.MAX_CHUNK_SIZE = 104857600 := rfl
  constructor
  · intro h
    rw [MerkleTree.setChunkSize, hmin, hmax, if_neg (by omega)]
  · intro h
    refine ⟨"Invalid chunk size. Must be between " ++
      toString MTFSConstants.MIN_CHUNK_SIZE ++ " and " ++
      toString MTFSConstants.MAX_CHUNK_SIZE ++ " bytes", ?_⟩
    rw [MerkleTree.setChunkSize, hmin, hmax, if_pos (by omega)]

/-- C5 witness: both boundary values succeed; 1023 and 104857601 fail with
    the tree unchanged. -/
theorem C5_witness :
    MerkleTree.setChunkSize demoTree0 1024 =
      ({ demoTree0 with CHUNK_SIZE := 1024 }, .ok ()) ∧
    MerkleTree.setChunkSize demoTree0 104857600 =
      ({ demoTree0 with CHUNK_SIZE := 104857600 }, .ok ()) ∧
    (∃ msg : String, MerkleTree.setChunkSize demoTree0 1023 = (demoTree0, .error msg)) ∧
    (∃ msg : String,
      MerkleTree.setChunkSize demoTree0 104857601 = (demoTree0, .error msg)) :=
  ⟨(C5_setChunkSize demoTree0 1024).1 (by omega),
   (C5_setChunkSize demoTree0 104857600).1 (by omega),
   (C5_setChunkSize demoTree0 1023).2 (Or.inl (by omega)),
   (C5_setChunkSize demoTree0 104857601).2 (Or.inr (by omega))⟩

/-- C6 (amended): path-validation failures (no such path, or a file) occur
    before any state is discarded; a build on an existing directory clears the
    content index and the node registry — but NOT `root` — before
    construction, so when the build then fails (enumeration failure on the
    root directory) the tree keeps its PREVIOUS root while the index is empty
    and the registry holds the partially constructed root node. -/
theorem C6_build_failure_state (sha : String → String) (t : MerkleTree) :
    (MerkleTree.build_tree sha none t = (.error "Directory does not exist", t)) ∧
    (∀ nm : String, ∀ content : Option (List Char),
      MerkleTree.build_tree sha (some (.file nm content)) t =
        (.error ("Path is not a directory: " ++ nm), t)) ∧
    (∀ nm : String, ∀ es : List FS,
      MerkleTree.build_tree sha (some (.dir nm false es)) t =
        (.error ("Error reading directory " ++ nm),
          ⟨t.root, [], [.mk nm "" "" [] false 0 []], t.CHUNK_SIZE⟩)) :=
  ⟨rfl, fun nm content => rfl, fun nm es => rfl⟩

def c6oldRoot : MerkleNode := .mk "old" "H" "" [] false 0 []

def c6prev : MerkleTree := ⟨some c6oldRoot, [("k", c6oldRoot)], [c6oldRoot], 1048576⟩

/-- C6 counterexample: the claim says a failed build (enumeration failure on
    the root of an existing directory) leaves root unset and the registry
    empty; on this concrete tree with a previous build, the failed build
    leaves the PREVIOUS root in place and one partially-built node in the
    registry. -/
theorem C6_stale_root_after_failure :
    (MerkleTree.build_tree demoDigest (some (FS.dir "r" false [])) c6prev).1 =
      .error "Error reading directory r" ∧
    ((MerkleTree.build_tree demoDigest (some (FS.dir "r" false [])) c6prev).2).root =
      some c6oldRoot ∧
    c6prev.root = some c6oldRoot ∧
    ((MerkleTree.build_tree demoDigest (some (FS.dir "r" false [])) c6prev).2).nodes =
      [MerkleNode.mk "r" "" "" [] false 0 []] :=
  ⟨rfl, rfl, rfl, rfl⟩

/-- C7: on a built (hence repaired, well-formed) tree, verifyTreeIntegrity
    returns true and leaves the whole node graph unchanged; getTreeStats and
    exportToJson are const traversals (embedded as pure functions of the
    tree) and observe exactly the same unchanged graph before and after the
    verification call. -/
theorem C7_readonly_traversals (sha : String → String) (r : MerkleNode)
    (hrep : Repaired sha r) (hfl : filesLeafB r = true)
    (fo : List (String × MerkleNode)) (ns : List MerkleNode) (cz : Nat) :
    MerkleTree.verifyTreeIntegrity sha ⟨some r, fo, ns, cz⟩ =
      (true, ⟨some r, fo, ns, cz⟩) ∧
    MerkleTree.getTreeStats
        ((MerkleTree.verifyTreeIntegrity sha ⟨some r, fo, ns, cz⟩).2) =
      MerkleTree.getTreeStats ⟨some r, fo, ns, cz⟩ ∧
    MerkleTree.exportToJson
        ((MerkleTree.verifyTreeIntegrity sha ⟨some r, fo, ns, cz⟩).2) =
      MerkleTree.exportToJson ⟨some r, fo, ns, cz⟩ := by
  have hv := verifyNodeIntegrity_repaired sha r hrep hfl
  have h1 : MerkleTree.verifyTreeIntegrity sha ⟨some r, fo, ns, cz⟩ =
      (true, ⟨some r, fo, ns, cz⟩) := by
    show ((verifyNodeIntegrity sha r).1,
      (⟨some (verifyNodeIntegrity sha r).2, fo, ns, cz⟩ : MerkleTree)) = _
    rw [hv]
  exact ⟨h1, by rw [h1], by rw [h1]⟩

def c7base : MerkleNode := .mk "r" "" "" [] false 0 [.mk "a" "" "x" ["x"] true 1 []]

/-- C7 witness: a concrete freshly built tree is verified as true and
    returned unchanged. -/
theorem C7_witness :
    Repaired demoDigest ((MerkleNode.calculateHash demoDigest c7base).2) ∧
    filesLeafB ((MerkleNode.calculateHash demoDigest c7base).2) = true ∧
    MerkleTree.verifyTreeIntegrity demoDigest
        ⟨some ((MerkleNode.calculateHash demoDigest c7base).2), [], [], 1048576⟩ =
      (true, ⟨some ((MerkleNode.calculateHash demoDigest c7base).2), [], [], 1048576⟩) :=
  ⟨calculateHash_repairs demoDigest c7base,
   calculateHash_filesLeaf demoDigest c7base (by decide),
   (C7_readonly_traversals demoDigest _ (calculateHash_repairs demoDigest c7base)
     (calculateHash_filesLeaf demoDigest c7base (by decide)) [] [] 1048576).1⟩

def c8fs : FS :=
  .dir "root" true [.dir "d1" true [.file "f" (some ['x'])],
    .dir "d2" true [.file "g" (some ['x'])]]

/-- C8: after a (necessarily successful) build over a readable directory,
    every entry of the content index is keyed by the contentHash of the file
    node it maps to; the index maps each digest to the most recently processed
    file node bearing it (the last one in depth-first processing order); and
    on a concrete filesystem holding two identical files "f" and "g" in
    different directories, both nodes are placed in the tree while the index
    entry for their shared digest names only the later-processed "g". -/
theorem C8_dedup_index (sha : String → String) (t : MerkleTree) (nm : String)
    (es : List FS) :
    (((MerkleTree.build_tree sha (some (.dir nm true es)) t).2).file_objects.all
      (fun p => p.1 == p.2.contentHash && p.2.isFile)) = true ∧
    (∀ q : String,
      lookupA ((MerkleTree.build_tree sha (some (.dir nm true es)) t).2).file_objects q =
        (fsFiles sha t.CHUNK_SIZE (.dir nm true es)).reverse.find?
          (fun v => v.contentHash == q)) ∧
    (MerkleTree.findNode ((MerkleTree.build_tree demoDigest (some c8fs) demoTree0).2)
      "f").isSome = true ∧
    (MerkleTree.findNode ((MerkleTree.build_tree demoDigest (some c8fs) demoTree0).2)
      "g").isSome = true ∧
    Option.map MerkleNode.name
      (lookupA (((MerkleTree.build_tree demoDigest (some c8fs) demoTree0).2)).file_objects
        (demoDigest "x")) = some "g" := by
  have hfo := build_tree_dir_fo sha t nm true es
  refine ⟨?_, ?_, by decide, by decide, by decide⟩
  · rw [hfo, List.all_eq_true]
    intro p hp
    rcases mem_foldIndex hp with h | ⟨v, hv, rfl⟩
    · cases h
    · simp [fsFiles_isFile sha t.CHUNK_SIZE _ v hv]
  · intro q
    rw [hfo, lookupA_foldIndex]
    have h0 : lookupA [] q = none := rfl
    rw [h0]
    cases (fsFiles sha t.CHUNK_SIZE (FS.dir nm true es)).reverse.find?
      (fun v => v.contentHash == q) with
    | none => rfl
    | some v => rfl

/-- C9: on a null root getTreeStats returns (0, 0, 0); on a built tree it
    returns the number of file nodes, the number of directory nodes (empty
    directories included) and the sum of fileSize over file nodes only. -/
theorem C9_getTreeStats (r : MerkleNode) (hfl : filesLeafB r = true)
    (fo : List (String × MerkleNode)) (ns : List MerkleNode) (cz : Nat) :
    MerkleTree.getTreeStats ⟨none, fo, ns, cz⟩ = (0, 0, 0) ∧
    MerkleTree.getTreeStats ⟨some r, fo, ns, cz⟩ =
      (countFiles r, countDirs r, totalFileSize r) := by
  constructor
  · rfl
  · show calculateStatsRecursive r (0, 0, 0) = _
    rw [calculateStatsRecursive_eq r hfl (0, 0, 0)]
    simp

/-- C9 witness: the statistics of a concrete two-child tree. -/
theorem C9_witness :
    filesLeafB c1demo = true ∧
    MerkleTree.getTreeStats ⟨some c1demo, [], [], 1048576⟩ =
      (countFiles c1demo, countDirs c1demo, totalFileSize c1demo) :=
  ⟨by decide, (C9_getTreeStats c1demo (by decide) [] [] 1048576).2⟩

/-- C10: on a null root findNode returns none for every name; otherwise it is
    exactly a pre-order depth-first search — each node tested before its
    children, a directory's children visited in lexicographically increasing
    name order — returning the first exact name match (preorderSpec is that
    traversal order). -/
theorem C10_findNode (q : String) (r : MerkleNode) (hs : sortedTreeB r = true)
    (fo : List (String × MerkleNode)) (ns : List MerkleNode) (cz : Nat) :
    MerkleTree.findNode ⟨none, fo, ns, cz⟩ q = none ∧
    MerkleTree.findNode ⟨some r, fo, ns, cz⟩ q =
      (preorderSpec r).find? (fun x => x.name == q) :=
  ⟨rfl, findNodeRecursive_eq q r hs⟩

/-- C10 witness: the search for "sub" on a concrete tree agrees with the
    pre-order first match. -/
theorem C10_witness :
    sortedTreeB c1demo = true ∧
    MerkleTree.findNode ⟨some c1demo, [], [], 1048576⟩ "sub" =
      (preorderSpec c1demo).find? (fun x => x.name == "sub") :=
  ⟨by decide, (C10_findNode "sub" c1demo (by decide) [] [] 1048576).2⟩
